import Mathlib

/-!
Shallow embedding of an audio-fingerprinting ("Shazam-style") pipeline:
spectrogram peak extraction (`_peaks`, `_find_cutoff` from
`audio_processing.py`), fanout fingerprint encoding (`_form_pair_encoding`,
`form_fingerprints`), the inverted fingerprint store built with a Python
`defaultdict(list)` (`database_utils.populate_database`,
`database_keyfunctions.store_fingerprint`), and the tally-based matching
engine (`database_keyfunctions.query_database`).

Machine integers are modelled as `ℤ`/`ℕ`; spectrogram amplitudes and the
percentile parameter (Python floats) are modelled as `ℚ` — every concrete
value used below is exactly representable in binary floating point, so the
evaluations shown agree with the Python/NumPy ones. A Python exception is
modelled as an `Except`/`Option` error value. Python dicts preserve
insertion order, so both the store and the per-query tally dictionary are
modelled as insertion-ordered association lists.
-/

namespace SpecRec

/-- A fingerprint key `(fm, fn, dt)`: anchor frequency bin, partner
frequency bin, time difference. -/
abbrev Key := ℤ × ℤ × ℤ

/-- One fingerprint entry `((fm, fn, dt), ts)`: a key together with the
anchor's absolute time, as produced by `form_fingerprints` and consumed by
`store_fingerprint` / `query_database`. -/
abbrev Entry := Key × ℤ

/-- One fanout group (the Python code calls each group a "fingerprint"):
the list of entries generated from a single anchor peak. -/
abbrev Fingerprint := List Entry

/-- The fingerprint store: the Python `defaultdict(list)` built by
`populate_database`, mapping keys to lists of `(songID, anchorTime)`
pairs.  Modelled as an insertion-ordered association list. -/
abbrev Store := List (Key × List (ℤ × ℤ))

/-- The per-query tally: the `defaultdict(int)` in `query_database`,
keyed by `(songID, t_offset)`; insertion-ordered. -/
abbrev Tallies := List ((ℤ × ℤ) × ℕ)

/-- Read `database[k]` on a `defaultdict(list)`: returns the stored list,
together with the store after the read — `defaultdict.__getitem__` inserts
`k ↦ []` (at the end, preserving insertion order) when `k` is absent. -/
def ddGet : Store → Key → List (ℤ × ℤ) × Store
  | [], k => ([], [(k, [])])
  | kv :: db, k =>
    if kv.1 = k then (kv.2, kv :: db)
    else
      let r := ddGet db k
      (r.1, kv :: r.2)

/-- Run `database[k].append v` on a `defaultdict(list)`: appends `v` to the
list under `k`, inserting `k ↦ [v]` at the end when `k` is absent. -/
def ddAppend : Store → Key → ℤ × ℤ → Store
  | [], k, v => [(k, [v])]
  | kv :: db, k, v =>
    if kv.1 = k then (kv.1, kv.2 ++ [v]) :: db
    else kv :: ddAppend db k v

/-- Embeds `store_fingerprint` from `database_keyfunctions.py`: for every group,
for every `((fm, fn, dt), ts)` entry, append `(songID, ts)` to
`database[(fm, fn, dt)]`. -/
def store_fingerprint (fingerprints : List Fingerprint) (songID : ℤ)
    (database : Store) : Store :=
  fingerprints.foldl
    (fun db fingerprint =>
      fingerprint.foldl (fun db e => ddAppend db e.1 (songID, e.2)) db)
    database

/-- Run `tallies[k] += 1` on a `defaultdict(int)`: increments in place when `k`
is present (keeping its position), otherwise appends `k ↦ 1` at the end. -/
def bump : Tallies → ℤ × ℤ → Tallies
  | [], k => [(k, 1)]
  | kv :: t, k => if kv.1 = k then (kv.1, kv.2 + 1) :: t else kv :: bump t k

/-- The tally loop of `query_database`: for each group, for each entry
`((fm, fn, dt), tc)`, for each `(songID, ts)` in `database[(fm, fn, dt)]`,
increment `tallies[(songID, ts - tc)]`.  The store is threaded through
because the `database[(fm, fn, dt)]` read inserts missing keys. -/
def queryTallies (fingerprints : List Fingerprint) (database : Store) :
    Tallies × Store :=
  fingerprints.foldl
    (fun acc fingerprint =>
      fingerprint.foldl
        (fun acc e =>
          let r := ddGet acc.2 e.1
          (r.1.foldl (fun t sv => bump t (sv.1, sv.2 - e.2)) acc.1, r.2))
        acc)
    ([], database)

/-- Python `max(tallies.values())`: `none` models the `ValueError` raised
on an empty dictionary. -/
def maxVal : Tallies → Option ℕ
  | [] => none
  | kv :: t => some (t.foldl (fun m kv' => Nat.max m kv'.2) kv.2)

/-- Python `max(tallies, key=tallies.get)` (returned with its tally):
the first entry attaining the maximum value, in insertion order — `max`
replaces its champion only on a strictly greater key value.  `none` models
the `ValueError` raised on an empty dictionary. -/
def argmaxKV : Tallies → Option ((ℤ × ℤ) × ℕ)
  | [] => none
  | kv :: t =>
    some (t.foldl (fun best kv' => if best.2 < kv'.2 then kv' else best) kv)

/-- Python list subscript `xs[i]` for `i : ℤ`, with negative-index wrap;
`none` models `IndexError`. -/
def pyIndex (xs : List (String × String)) (i : ℤ) :
    Option (String × String) :=
  if 0 ≤ i then xs[i.toNat]?
  else if 0 ≤ i + xs.length then xs[(i + xs.length).toNat]?
  else none

/-- The Python exceptions `query_database` can raise. -/
inductive PyErr where
  | valueError
  | indexError
deriving DecidableEq, Repr

/-- Embeds `query_database` from `database_keyfunctions.py`: tally votes per
`(songID, t_offset)`, then branch on `max(tallies.values())`, returning
the no-match string when the maximum is `0`, and otherwise the match
string for `songIDs[final_ID]` where `final_ID` is the first component of
`max(tallies, key=tallies.get)`.  The returned store reflects the keys
inserted by the `defaultdict` reads. -/
def query_database (fingerprints : List Fingerprint) (database : Store)
    (songIDs : List (String × String)) : Except PyErr String × Store :=
  let r := queryTallies fingerprints database
  match maxVal r.1 with
  | none => (Except.error PyErr.valueError, r.2)
  | some m =>
    if m = 0 then
      (Except.ok "This song does not match any other song in the database",
        r.2)
    else
      match argmaxKV r.1 with
      | none => (Except.error PyErr.valueError, r.2)
      | some best =>
        match pyIndex songIDs best.1.1 with
        | none => (Except.error PyErr.indexError, r.2)
        | some info =>
          (Except.ok ("The song that matches this is " ++ info.1 ++ " by "
              ++ info.2 ++ "."), r.2)

/-! Observers and flattened forms of the store/tally loops, used by the
proofs below (they are not part of the source; the lemmas
`ddGet_eq`, `store_fingerprint_eq_storeEntries` and `queryTallies_eq`
connect them to the embedded functions). -/

/-- Value of a key in the tally dictionary (`0` when absent). -/
def tval : Tallies → ℤ × ℤ → ℕ
  | [], _ => 0
  | kv :: t, k => if kv.1 = k then kv.2 else tval t k

/-- Whether a key is present in the store. -/
def hasKey : Store → Key → Bool
  | [], _ => false
  | kv :: db, k => decide (kv.1 = k) || hasKey db k

/-- The list stored under a key (`[]` when absent). -/
def getList : Store → Key → List (ℤ × ℤ)
  | [], _ => []
  | kv :: db, k => if kv.1 = k then kv.2 else getList db k

/-- The function `store_fingerprint` with its two nested loops flattened into one loop
over the concatenated entry list. -/
def storeEntries (entries : List Entry) (songID : ℤ) (db : Store) : Store :=
  entries.foldl (fun db e => ddAppend db e.1 (songID, e.2)) db

/-- The tally loop of `query_database` flattened into one loop over the
concatenated entry list, against a store that none of the reads mutates. -/
def tallyEntries (entries : List Entry) (db : Store) : Tallies :=
  entries.foldl
    (fun t e =>
      (getList db e.1).foldl (fun t sv => bump t (sv.1, sv.2 - e.2)) t)
    []

/-- One step of the neighbor scan inside `_peaks` (`audio_processing.py`):
`true` when offset `o` is non-zero, lands in bounds from cell `(r, c)`,
and points at a strictly greater amplitude — exactly the condition that
makes the Python inner loop `break` and reject the candidate.  Amplitudes
are only ever compared, so they live in an arbitrary linear order
(instantiated at `ℤ`/`ℚ` in concrete runs; IEEE floats away from NaN are
linearly ordered). -/
def greaterNbr {α : Type} [LinearOrder α] (H W : ℕ) (data : ℤ → ℤ → α)
    (r c : ℕ) (o : ℤ × ℤ) : Bool :=
  !decide (o.1 = 0 ∧ o.2 = 0) &&
  decide (0 ≤ (r : ℤ) + o.1 ∧ (r : ℤ) + o.1 < (H : ℤ)) &&
  decide (0 ≤ (c : ℤ) + o.2 ∧ (c : ℤ) + o.2 < (W : ℤ)) &&
  decide (data r c < data ((r : ℤ) + o.1) ((c : ℤ) + o.2))

/-- Embeds `_peaks` from `audio_processing.py`: iterate `(c, r)` over
`np.ndindex(*data_2d.shape[::-1])` — columns outer, rows inner — skip
cells with `data_2d[r, c] <= amp_min`, reject a candidate as soon as some
non-zero in-bounds neighborhood offset points at a strictly greater
amplitude (the `for`/`break`/`else` idiom, i.e. keep the cell iff no
offset triggers `greaterNbr`), and append the survivors `(r, c)` in
traversal order.  The shape is `(H, W)`; `data` is the amplitude matrix,
total as a function but only read at in-bounds indices; `offsets` is the
zipped list of (row, col) neighborhood offsets. -/
def _peaks {α : Type} [LinearOrder α] (H W : ℕ) (data : ℤ → ℤ → α)
    (offsets : List (ℤ × ℤ)) (amp_min : α) : List (ℕ × ℕ) :=
  (List.range W).flatMap fun (c : ℕ) =>
    ((List.range H).filter fun (r : ℕ) =>
      decide (amp_min < data (r : ℤ) (c : ℤ)) &&
        !(offsets.any (greaterNbr H W data r c))).map
      fun r => (r, c)

/-- Embeds `_form_pair_encoding` from `audio_processing.py`:
`(peak_m[0], peak_n[0], peak_n[1] - peak_m[1])`. -/
def _form_pair_encoding (peak_m peak_n : ℤ × ℤ) : ℤ × ℤ × ℤ :=
  (peak_m.1, peak_n.1, peak_n.2 - peak_m.2)

/-- Embeds `form_fingerprints` from `audio_processing.py`: for each anchor index
`i` (Python `enumerate`), slice `local_peaks_idx[i + 1 : i + fanout_size + 1]`
(= drop `i + 1`, take `fanout_size`) and emit
`[_form_pair_encoding idx close_peak, idx[1]]` for each partner.
`fanout_size` is `cfg["fanout_size"]`, passed here as a parameter. -/
def form_fingerprints (fanout_size : ℕ) (local_peaks_idx : List (ℤ × ℤ)) :
    List Fingerprint :=
  local_peaks_idx.enum.map fun p =>
    ((local_peaks_idx.drop (p.1 + 1)).take fanout_size).map fun close_peak =>
      (_form_pair_encoding p.2 close_peak, p.2.2)

/-- Python 3 `round` on an exact rational: round half to even
(banker's rounding).  Python floats are exact dyadic rationals, so this
is `round` on any value a float can hold. -/
def pyRound (x : ℚ) : ℤ :=
  if Int.fract x < 1 / 2 then ⌊x⌋
  else if 1 / 2 < Int.fract x then ⌊x⌋ + 1
  else if ⌊x⌋ % 2 = 0 then ⌊x⌋ else ⌊x⌋ + 1

/-- Computes `round(n * x)` from `x.num`/`x.den` with integer arithmetic
only (so that it evaluates inside the kernel); `pyRoundTimes_eq` proves
it equal to `pyRound ((n : ℚ) * x)`.  `q` is `⌊n·x⌋` (`/` on `ℤ` is
floor division for the positive denominator) and `r/x.den` the
fractional part, so the half comparison `r/x.den ≷ 1/2` is `2·r ≷ x.den`. -/
def pyRoundTimes (n : ℕ) (x : ℚ) : ℤ :=
  let num := (n : ℤ) * x.num
  let q := num / (x.den : ℤ)
  let r := num % (x.den : ℤ)
  if 2 * r < (x.den : ℤ) then q
  else if (x.den : ℤ) < 2 * r then q + 1
  else if q % 2 = 0 then q else q + 1

/-- Embeds `_find_cutoff` from `audio_processing.py`: flatten the spectrogram,
set `idx = round(len(data) * amp_threshold_pct)`, and return
`np.partition(data, idx)[idx]` — the element of rank `idx` in the
ascending order of the data, here read off the sorted list.  `none`
models the `ValueError` `np.partition` raises when `idx` is out of
bounds (the configured percentile is nonnegative, so only the `idx ≥ n`
overflow side is reachable and modelled; `amp_threshold_pct` is
`cfg["amp_threshold_pct"]`, passed here as a parameter). -/
def _find_cutoff {α : Type} [LinearOrder α] (data : List α)
    (amp_threshold_pct : ℚ) : Option α :=
  let idx := pyRoundTimes data.length amp_threshold_pct
  if 0 ≤ idx ∧ idx.toNat < data.length then
    (List.insertionSort (· ≤ ·) data)[idx.toNat]?
  else none

/-! ### Lemmas about the defaultdict store -/

theorem ddGet_eq (db : Store) (k : Key) :
    ddGet db k =
      (getList db k, if hasKey db k then db else db ++ [(k, [])]) := by
  induction db with
  | nil => rfl
  | cons kv db ih =>
    by_cases h : kv.1 = k
    · simp [ddGet, getList, hasKey, h]
    · simp only [ddGet, getList, hasKey, h, if_false, ih, decide_eq_true_eq]
      cases hk : hasKey db k <;> simp [h, hk]

theorem getList_ddAppend (db : Store) (k k' : Key) (v : ℤ × ℤ) :
    getList (ddAppend db k v) k' =
      if k' = k then getList db k ++ [v] else getList db k' := by
  induction db with
  | nil =>
    by_cases h : k' = k
    · subst h; simp [ddAppend, getList]
    · simp [ddAppend, getList, h, Ne.symm h]
  | cons kv db ih =>
    simp only [ddAppend]
    by_cases h : kv.1 = k
    · simp only [h, if_true]
      by_cases h' : k' = k
      · subst h'; simp [getList, h]
      · simp [getList, h, h', Ne.symm h']
    · simp only [h, if_false]
      by_cases h'' : kv.1 = k'
      · have hne : ¬ k' = k := fun hh => h (h''.trans hh)
        simp [getList, h, h'', hne]
      · simp [getList, h, h'', ih]

theorem hasKey_ddAppend (db : Store) (k k' : Key) (v : ℤ × ℤ) :
    hasKey (ddAppend db k v) k' = (decide (k = k') || hasKey db k') := by
  induction db with
  | nil => simp [ddAppend, hasKey, eq_comm]
  | cons kv db ih =>
    by_cases h : kv.1 = k
    · subst h
      by_cases h' : kv.1 = k' <;> simp [ddAppend, hasKey, h']
    · simp only [ddAppend, h, if_false, hasKey, ih]
      cases hd : decide (kv.1 = k') <;> simp

theorem store_fingerprint_eq_storeEntries (G : List Fingerprint) (s : ℤ)
    (db : Store) :
    store_fingerprint G s db = storeEntries G.flatten s db := by
  rw [store_fingerprint, storeEntries, List.foldl_flatten]

theorem getList_storeEntries (entries : List Entry) (s : ℤ) (db : Store)
    (k : Key) :
    getList (storeEntries entries s db) k =
      getList db k ++
        entries.filterMap
          (fun e => if e.1 = k then some (s, e.2) else none) := by
  induction entries generalizing db with
  | nil => simp [storeEntries]
  | cons e es ih =>
    rw [storeEntries, List.foldl_cons, ← storeEntries, ih, getList_ddAppend]
    by_cases h : e.1 = k
    · simp [List.filterMap_cons, h, List.append_assoc]
    · simp [List.filterMap_cons, h, Ne.symm h]

theorem hasKey_storeEntries (entries : List Entry) (s : ℤ) (db : Store)
    (k : Key) :
    hasKey (storeEntries entries s db) k =
      (hasKey db k || entries.any fun e => decide (e.1 = k)) := by
  induction entries generalizing db with
  | nil => simp [storeEntries]
  | cons e es ih =>
    rw [storeEntries, List.foldl_cons, ← storeEntries, ih, hasKey_ddAppend]
    cases hd : decide (e.1 = k) <;>
      simp_all [List.any_cons, eq_comm, Bool.or_comm, Bool.or_assoc]

/-! ### Lemmas about the tally loop -/

theorem queryTallies_go (entries : List Entry) (db : Store) (t0 : Tallies)
    (h : ∀ e ∈ entries, hasKey db e.1) :
    entries.foldl
      (fun acc e =>
        let r := ddGet acc.2 e.1
        (r.1.foldl (fun t sv => bump t (sv.1, sv.2 - e.2)) acc.1, r.2))
      (t0, db) =
      (entries.foldl
        (fun t e =>
          (getList db e.1).foldl (fun t sv => bump t (sv.1, sv.2 - e.2)) t)
        t0, db) := by
  induction entries generalizing t0 with
  | nil => rfl
  | cons e es ih =>
    have hk : hasKey db e.1 = true := h e (List.mem_cons_self e es)
    rw [List.foldl_cons]
    simp only [ddGet_eq db e.1, hk, eq_self_iff_true, if_true]
    rw [ih _ fun e' he' => h e' (List.mem_cons_of_mem _ he')]
    rfl

theorem queryTallies_eq (G : List Fingerprint) (db : Store)
    (h : ∀ e ∈ G.flatten, hasKey db e.1) :
    queryTallies G db = (tallyEntries G.flatten db, db) := by
  rw [queryTallies, tallyEntries, ← List.foldl_flatten]
  exact queryTallies_go G.flatten db [] h

theorem tval_bump (t : Tallies) (k k' : ℤ × ℤ) :
    tval (bump t k) k' = tval t k' + if k' = k then 1 else 0 := by
  induction t with
  | nil =>
    by_cases h : k' = k
    · subst h; simp [bump, tval]
    · simp [bump, tval, h, Ne.symm h]
  | cons kv t ih =>
    simp only [bump]
    by_cases h : kv.1 = k
    · simp only [h, if_true]
      by_cases h' : k' = k
      · subst h'; simp [tval, h]
      · simp [tval, h, h', Ne.symm h']
    · simp only [h, if_false]
      by_cases h'' : kv.1 = k'
      · have hne : ¬ k' = k := fun hh => h (h''.trans hh)
        simp [tval, h'', hne]
      · simp [tval, h'', ih]

theorem tval_foldl_bump (vals : List (ℤ × ℤ)) (tc : ℤ) (t0 : Tallies)
    (k : ℤ × ℤ) :
    tval (vals.foldl (fun t sv => bump t (sv.1, sv.2 - tc)) t0) k =
      tval t0 k + vals.countP fun sv => decide ((sv.1, sv.2 - tc) = k) := by
  induction vals generalizing t0 with
  | nil => simp
  | cons sv vals ih =>
    simp only [List.foldl_cons, ih, tval_bump, List.countP_cons]
    by_cases h : k = (sv.1, sv.2 - tc)
    · have hd : decide ((sv.1, sv.2 - tc) = k) = true := decide_eq_true h.symm
      rw [if_pos h, hd, if_pos rfl]
      omega
    · have hd : decide ((sv.1, sv.2 - tc) = k) = false :=
        decide_eq_false fun hh => h hh.symm
      rw [if_neg h, hd, if_neg Bool.false_ne_true]
      omega

theorem tval_tallyEntries_go (entries : List Entry) (db : Store)
    (t0 : Tallies) (k : ℤ × ℤ) :
    tval (entries.foldl
      (fun t e =>
        (getList db e.1).foldl (fun t sv => bump t (sv.1, sv.2 - e.2)) t)
      t0) k =
      tval t0 k +
        (entries.map fun e =>
          (getList db e.1).countP fun sv =>
            decide ((sv.1, sv.2 - e.2) = k)).sum := by
  induction entries generalizing t0 with
  | nil => simp
  | cons e es ih =>
    simp only [List.foldl_cons, ih, tval_foldl_bump, List.map_cons,
      List.sum_cons]
    omega

theorem tval_tallyEntries (entries : List Entry) (db : Store) (k : ℤ × ℤ) :
    tval (tallyEntries entries db) k =
      (entries.map fun e =>
        (getList db e.1).countP fun sv =>
          decide ((sv.1, sv.2 - e.2) = k)).sum := by
  rw [tallyEntries, tval_tallyEntries_go]
  simp [tval]

theorem mem_bump (t : Tallies) (k : ℤ × ℤ) (P : ℤ × ℤ → Prop)
    (ht : ∀ kv ∈ t, P kv.1) (hk : P k) : ∀ kv ∈ bump t k, P kv.1 := by
  induction t with
  | nil => simpa [bump]
  | cons kv t ih =>
    intro kv' h'
    rw [bump] at h'
    by_cases h : kv.1 = k
    · rw [if_pos h] at h'
      rcases List.mem_cons.1 h' with h'' | h''
      · subst h''; exact ht kv (List.mem_cons_self kv t)
      · exact ht kv' (List.mem_cons_of_mem _ h'')
    · rw [if_neg h] at h'
      rcases List.mem_cons.1 h' with h'' | h''
      · rw [h'']; exact ht kv (List.mem_cons_self kv t)
      · exact ih (fun kv'' hm => ht kv'' (List.mem_cons_of_mem _ hm)) kv' h''

theorem keys_bump (t : Tallies) (k : ℤ × ℤ) :
    (bump t k).map Prod.fst =
      if k ∈ t.map Prod.fst then t.map Prod.fst
      else t.map Prod.fst ++ [k] := by
  induction t with
  | nil => simp [bump]
  | cons kv t ih =>
    rw [bump]
    by_cases h : kv.1 = k
    · subst h; simp
    · rw [if_neg h, List.map_cons, ih, List.map_cons]
      by_cases hm : k ∈ t.map Prod.fst
      · simp [hm, Ne.symm h]
      · simp [hm, Ne.symm h]

theorem keys_bump_nodup (t : Tallies) (k : ℤ × ℤ)
    (h : (t.map Prod.fst).Nodup) : ((bump t k).map Prod.fst).Nodup := by
  rw [keys_bump]
  by_cases hm : k ∈ t.map Prod.fst
  · rwa [if_pos hm]
  · rw [if_neg hm, List.nodup_append]
    refine ⟨h, List.nodup_singleton k, ?_⟩
    intro a ha hb
    rw [List.mem_singleton] at hb
    subst hb
    exact hm ha

theorem mem_eq_tval (t : Tallies) (h : (t.map Prod.fst).Nodup)
    (kv : (ℤ × ℤ) × ℕ) (hm : kv ∈ t) : kv.2 = tval t kv.1 := by
  induction t with
  | nil => cases hm
  | cons kv' t ih =>
    rw [List.map_cons, List.nodup_cons] at h
    rcases List.mem_cons.1 hm with h'' | h''
    · subst h''; simp [tval]
    · have hne : ¬ kv'.1 = kv.1 := by
        intro hh
        exact h.1 (hh ▸ List.mem_map_of_mem Prod.fst h'')
      rw [tval, if_neg hne]
      exact ih h.2 h''

theorem tval_ne_zero_mem (t : Tallies) (k : ℤ × ℤ) (h : tval t k ≠ 0) :
    (k, tval t k) ∈ t := by
  induction t with
  | nil => simp [tval] at h
  | cons kv t ih =>
    rw [tval]
    by_cases h' : kv.1 = k
    · rw [if_pos h']
      subst h'
      rw [Prod.mk.eta]
      exact List.mem_cons_self kv t
    · rw [if_neg h']
      rw [tval, if_neg h'] at h
      exact List.mem_cons_of_mem _ (ih h)

/-! ### Lemmas about `maxVal` and `argmaxKV` (Python `max`) -/

theorem foldl_max_ge_init (l : List ((ℤ × ℤ) × ℕ)) (b : ℕ) :
    b ≤ l.foldl (fun m kv => Nat.max m kv.2) b := by
  induction l generalizing b with
  | nil => exact le_refl b
  | cons kv l ih => exact le_trans (Nat.le_max_left b kv.2) (ih _)

theorem foldl_max_ge_mem (l : List ((ℤ × ℤ) × ℕ)) (b : ℕ) :
    ∀ kv ∈ l, kv.2 ≤ l.foldl (fun m kv => Nat.max m kv.2) b := by
  induction l generalizing b with
  | nil => intro kv h; cases h
  | cons kv' l ih =>
    intro kv h
    rw [List.foldl_cons]
    rcases List.mem_cons.1 h with h' | h'
    · rw [h']
      exact le_trans (Nat.le_max_right b kv'.2) (foldl_max_ge_init l _)
    · exact ih _ kv h'

theorem foldl_max_cases (l : List ((ℤ × ℤ) × ℕ)) (b : ℕ) :
    l.foldl (fun m kv => Nat.max m kv.2) b = b ∨
      ∃ kv ∈ l, l.foldl (fun m kv => Nat.max m kv.2) b = kv.2 := by
  induction l generalizing b with
  | nil => exact Or.inl rfl
  | cons kv l ih =>
    rw [List.foldl_cons]
    rcases ih (Nat.max b kv.2) with h | ⟨kv', hm, he⟩
    · rcases Nat.le_total b kv.2 with hh | hh
      · exact Or.inr ⟨kv, List.mem_cons_self kv l,
          by rw [h]; exact max_eq_right hh⟩
      · exact Or.inl (by rw [h]; exact max_eq_left hh)
    · exact Or.inr ⟨kv', List.mem_cons_of_mem _ hm, he⟩

theorem maxVal_le (t : Tallies) (m : ℕ) (h : maxVal t = some m) :
    ∀ kv ∈ t, kv.2 ≤ m := by
  cases t with
  | nil => cases h
  | cons kv0 t =>
    rw [maxVal] at h
    injection h with h
    subst h
    intro kv hm
    rcases List.mem_cons.1 hm with h' | h'
    · rw [h']; exact foldl_max_ge_init t kv0.2
    · exact foldl_max_ge_mem t kv0.2 kv h'

theorem maxVal_eq_of (t : Tallies) (m : ℕ)
    (h1 : ∃ kv ∈ t, kv.2 = m) (h2 : ∀ kv ∈ t, kv.2 ≤ m) :
    maxVal t = some m := by
  obtain ⟨kv, hkm, hkv⟩ := h1
  cases t with
  | nil => cases hkm
  | cons kv0 t =>
    rw [maxVal]
    refine congrArg some (le_antisymm ?_ ?_)
    · rcases foldl_max_cases t kv0.2 with h | ⟨kv', hm', he⟩
      · rw [h]; exact h2 kv0 (List.mem_cons_self kv0 t)
      · rw [he]; exact h2 kv' (List.mem_cons_of_mem _ hm')
    · rcases List.mem_cons.1 hkm with h' | h'
      · rw [← hkv, h']; exact foldl_max_ge_init t kv0.2
      · rw [← hkv]; exact foldl_max_ge_mem t kv0.2 kv h'

theorem foldl_pick_mem (l : List ((ℤ × ℤ) × ℕ)) (x : (ℤ × ℤ) × ℕ) :
    l.foldl (fun best kv => if best.2 < kv.2 then kv else best) x ∈
      x :: l := by
  induction l generalizing x with
  | nil => exact List.mem_singleton_self x
  | cons y l ih =>
    rw [List.foldl_cons]
    rcases List.mem_cons.1 (ih (if x.2 < y.2 then y else x)) with h | h
    · rw [h]
      by_cases hxy : x.2 < y.2
      · rw [if_pos hxy]
        exact List.mem_cons_of_mem _ (List.mem_cons_self y l)
      · rw [if_neg hxy]
        exact List.mem_cons_self x (y :: l)
    · exact List.mem_cons_of_mem _ (List.mem_cons_of_mem _ h)

theorem argmaxKV_mem (t : Tallies) (kv : (ℤ × ℤ) × ℕ)
    (h : argmaxKV t = some kv) : kv ∈ t := by
  cases t with
  | nil => cases h
  | cons kv0 t =>
    rw [argmaxKV] at h
    injection h with h
    exact h ▸ foldl_pick_mem t kv0

theorem foldl_pick_first (m : ℕ) (l : List ((ℤ × ℤ) × ℕ)) :
    ∀ (x : (ℤ × ℤ) × ℕ) (i : ℕ) (kv : (ℤ × ℤ) × ℕ),
      (∀ kv' ∈ x :: l, kv'.2 ≤ m) →
      (x :: l)[i]? = some kv → kv.2 = m →
      (∀ j, j < i → ∀ kv', (x :: l)[j]? = some kv' → kv'.2 < m) →
      l.foldl (fun best kv' => if best.2 < kv'.2 then kv' else best) x =
        kv := by
  induction l with
  | nil =>
    intro x i kv hub hi hkv hfirst
    cases i with
    | zero =>
      rw [List.getElem?_cons_zero] at hi
      injection hi
    | succ n =>
      rw [List.getElem?_cons_succ, List.getElem?_nil] at hi
      cases hi
  | cons y l ih =>
    intro x i kv hub hi hkv hfirst
    rw [List.foldl_cons]
    cases i with
    | zero =>
      rw [List.getElem?_cons_zero] at hi
      injection hi with hi
      subst hi
      have hy : y.2 ≤ x.2 := by
        rw [hkv]
        exact hub y (List.mem_cons_of_mem _ (List.mem_cons_self y l))
      rw [if_neg (not_lt.2 hy)]
      refine ih x 0 x ?_ List.getElem?_cons_zero hkv ?_
      · intro kv' h'
        rcases List.mem_cons.1 h' with h'' | h''
        · exact h'' ▸ hub x (List.mem_cons_self _ _)
        · exact hub kv'
            (List.mem_cons_of_mem _ (List.mem_cons_of_mem _ h''))
      · intro j hj kv'' _
        exact absurd hj (Nat.not_lt_zero j)
    | succ n =>
      rw [List.getElem?_cons_succ] at hi
      have hx : x.2 < m :=
        hfirst 0 (Nat.succ_pos n) x List.getElem?_cons_zero
      cases n with
      | zero =>
        rw [List.getElem?_cons_zero] at hi
        injection hi with hi
        subst hi
        have hxy : x.2 < y.2 := by rw [hkv]; exact hx
        rw [if_pos hxy]
        refine ih y 0 y ?_ List.getElem?_cons_zero hkv ?_
        · intro kv' h'
          exact hub kv' (List.mem_cons_of_mem _ h')
        · intro j hj kv'' _
          exact absurd hj (Nat.not_lt_zero j)
      | succ n' =>
        rw [List.getElem?_cons_succ] at hi
        have hy : y.2 < m := by
          refine hfirst 1 (by omega) y ?_
          rw [List.getElem?_cons_succ, List.getElem?_cons_zero]
        refine ih (if x.2 < y.2 then y else x) (n' + 1) kv ?_ ?_ hkv ?_
        · intro kv' h'
          rcases List.mem_cons.1 h' with h'' | h''
          · rw [h'']
            by_cases hxy : x.2 < y.2
            · rw [if_pos hxy]; exact le_of_lt hy
            · rw [if_neg hxy]; exact le_of_lt hx
          · exact hub kv'
              (List.mem_cons_of_mem _ (List.mem_cons_of_mem _ h''))
        · rw [List.getElem?_cons_succ]; exact hi
        · intro j hj kv'' hj'
          cases j with
          | zero =>
            rw [List.getElem?_cons_zero] at hj'
            injection hj' with hj'
            rw [← hj']
            by_cases hxy : x.2 < y.2
            · rw [if_pos hxy]; exact hy
            · rw [if_neg hxy]; exact hx
          | succ j' =>
            rw [List.getElem?_cons_succ] at hj'
            refine hfirst (j' + 2) (by omega) kv'' ?_
            rw [List.getElem?_cons_succ, List.getElem?_cons_succ]
            exact hj'

theorem argmaxKV_first (t : Tallies) (m i : ℕ) (kv : (ℤ × ℤ) × ℕ)
    (hub : ∀ kv' ∈ t, kv'.2 ≤ m)
    (hi : t[i]? = some kv) (hkv : kv.2 = m)
    (hfirst : ∀ j, j < i → ∀ kv', t[j]? = some kv' → kv'.2 < m) :
    argmaxKV t = some kv := by
  cases t with
  | nil => rw [List.getElem?_nil] at hi; cases hi
  | cons kv0 t =>
    rw [argmaxKV]
    exact congrArg some (foldl_pick_first m t kv0 i kv hub hi hkv hfirst)

/-! ### Counting lemmas for the round-trip argument -/

theorem sum_map_eq_length (l : List Entry) (f : Entry → ℕ)
    (h : ∀ e ∈ l, f e = 1) : (l.map f).sum = l.length := by
  induction l with
  | nil => rfl
  | cons e es ih =>
    rw [List.map_cons, List.sum_cons, h e (List.mem_cons_self e es),
      ih fun e' he' => h e' (List.mem_cons_of_mem _ he'), List.length_cons]
    omega

theorem sum_map_le_length (l : List Entry) (f : Entry → ℕ)
    (h : ∀ e ∈ l, f e ≤ 1) : (l.map f).sum ≤ l.length := by
  induction l with
  | nil => exact le_refl 0
  | cons e es ih =>
    rw [List.map_cons, List.sum_cons, List.length_cons]
    have h1 := h e (List.mem_cons_self e es)
    have h2 := ih fun e' he' => h e' (List.mem_cons_of_mem _ he')
    omega

theorem countP_eq_one_of_nodup_mem (l : List Entry) (c : Entry)
    (hnd : l.Nodup) (hm : c ∈ l) :
    (l.countP fun e' => decide (e' = c)) = 1 := by
  induction l with
  | nil => cases hm
  | cons a l ih =>
    rw [List.nodup_cons] at hnd
    rw [List.countP_cons]
    rcases List.mem_cons.1 hm with h | h
    · have hz : List.countP (fun e' => decide (e' = c)) l = 0 := by
        rw [List.countP_eq_zero]
        intro e' he'
        simp only [decide_eq_true_eq]
        intro hh
        apply hnd.1
        rw [← h, ← hh]
        exact he'
      rw [hz, decide_eq_true h.symm, if_pos rfl]
    · rw [ih hnd.2 h,
        decide_eq_false fun hh : a = c => hnd.1 (hh ▸ h),
        if_neg Bool.false_ne_true]

theorem countP_le_one_of_nodup (l : List Entry) (c : Entry)
    (hnd : l.Nodup) : (l.countP fun e' => decide (e' = c)) ≤ 1 := by
  induction l with
  | nil => exact Nat.zero_le 1
  | cons a l ih =>
    rw [List.nodup_cons] at hnd
    rw [List.countP_cons]
    by_cases h : a = c
    · have hz : List.countP (fun e' => decide (e' = c)) l = 0 := by
        rw [List.countP_eq_zero]
        intro e' he'
        simp only [decide_eq_true_eq]
        intro hh
        apply hnd.1
        rw [h, ← hh]
        exact he'
      rw [hz, decide_eq_true h, if_pos rfl]
    · rw [decide_eq_false h, if_neg Bool.false_ne_true]
      have := ih hnd.2
      omega

theorem countP_store_list (entries : List Entry) (e : Entry) (σ : ℤ)
    (k : ℤ × ℤ) :
    ((entries.filterMap fun e' =>
        if e'.1 = e.1 then some (σ, e'.2) else none).countP
      fun sv => decide ((sv.1, sv.2 - e.2) = k)) =
      entries.countP fun e' =>
        decide (e'.1 = e.1 ∧ (σ, e'.2 - e.2) = k) := by
  induction entries with
  | nil => rfl
  | cons e' es ih =>
    rw [List.filterMap_cons, List.countP_cons]
    by_cases hk : e'.1 = e.1
    · rw [if_pos hk, List.countP_cons, ih]
      have hd : decide ((σ, e'.2 - e.2) = k) =
          decide (e'.1 = e.1 ∧ (σ, e'.2 - e.2) = k) := by
        rw [decide_eq_decide]
        exact ⟨fun h => ⟨hk, h⟩, And.right⟩
      rw [hd]
    · rw [if_neg hk, ih,
        decide_eq_false (fun hh : _ ∧ _ => hk hh.1),
        if_neg Bool.false_ne_true]
      omega

theorem foldl_bump_keys (vals : List (ℤ × ℤ)) (tc : ℤ) (t0 : Tallies)
    (P : ℤ × ℤ → Prop) (h0 : ∀ kv ∈ t0, P kv.1)
    (hv : ∀ sv ∈ vals, P (sv.1, sv.2 - tc)) :
    ∀ kv ∈ vals.foldl (fun t sv => bump t (sv.1, sv.2 - tc)) t0, P kv.1 := by
  induction vals generalizing t0 with
  | nil => exact h0
  | cons sv vals ih =>
    rw [List.foldl_cons]
    exact ih _
      (mem_bump t0 _ P h0 (hv sv (List.mem_cons_self sv vals)))
      fun sv' h' => hv sv' (List.mem_cons_of_mem _ h')

theorem tallyEntries_keys (entries : List Entry) (db : Store)
    (P : ℤ × ℤ → Prop)
    (h : ∀ e ∈ entries, ∀ sv ∈ getList db e.1, P (sv.1, sv.2 - e.2)) :
    ∀ kv ∈ tallyEntries entries db, P kv.1 := by
  rw [tallyEntries]
  suffices hgen : ∀ (es : List Entry) (t0 : Tallies),
      (∀ e ∈ es, ∀ sv ∈ getList db e.1, P (sv.1, sv.2 - e.2)) →
      (∀ kv ∈ t0, P kv.1) →
      ∀ kv ∈ es.foldl
        (fun t e =>
          (getList db e.1).foldl (fun t sv => bump t (sv.1, sv.2 - e.2)) t)
        t0, P kv.1 by
    exact hgen entries [] h fun kv hkv => absurd hkv (List.not_mem_nil kv)
  intro es
  induction es with
  | nil => intro t0 _ h0; exact h0
  | cons e es ih =>
    intro t0 hes h0
    rw [List.foldl_cons]
    exact ih _
      (fun e' he' => hes e' (List.mem_cons_of_mem _ he'))
      (foldl_bump_keys _ _ _ P h0
        fun sv hsv => hes e (List.mem_cons_self e es) sv hsv)

theorem foldl_bump_nodup (vals : List (ℤ × ℤ)) (tc : ℤ) (t0 : Tallies)
    (h0 : (t0.map Prod.fst).Nodup) :
    (((vals.foldl (fun t sv => bump t (sv.1, sv.2 - tc)) t0).map
      Prod.fst)).Nodup := by
  induction vals generalizing t0 with
  | nil => exact h0
  | cons sv vals ih =>
    rw [List.foldl_cons]
    exact ih _ (keys_bump_nodup t0 _ h0)

theorem tallyEntries_nodup (entries : List Entry) (db : Store) :
    ((tallyEntries entries db).map Prod.fst).Nodup := by
  rw [tallyEntries]
  suffices hgen : ∀ t0 : Tallies, (t0.map Prod.fst).Nodup →
      ((entries.foldl
        (fun t e =>
          (getList db e.1).foldl (fun t sv => bump t (sv.1, sv.2 - e.2)) t)
        t0).map Prod.fst).Nodup by
    exact hgen [] List.nodup_nil
  induction entries with
  | nil => exact fun t0 h0 => h0
  | cons e es ih =>
    intro t0 h0
    rw [List.foldl_cons]
    exact ih _ (foldl_bump_nodup _ _ _ h0)

/-! ### The round-trip store -/

theorem roundtrip_getList (G : List Fingerprint) (s : ℤ) (k : Key) :
    getList (store_fingerprint G s []) k =
      G.flatten.filterMap
        fun e => if e.1 = k then some (s, e.2) else none := by
  rw [store_fingerprint_eq_storeEntries, getList_storeEntries]
  rfl

theorem roundtrip_hasKey (G : List Fingerprint) (s : ℤ) (e : Entry)
    (he : e ∈ G.flatten) :
    hasKey (store_fingerprint G s []) e.1 = true := by
  rw [store_fingerprint_eq_storeEntries, hasKey_storeEntries]
  simp only [hasKey, Bool.false_or, List.any_eq_true]
  exact ⟨e, he, by simp⟩

theorem roundtrip_tval_diag (G : List Fingerprint) (s : ℤ)
    (hnd : G.flatten.Nodup) :
    tval (tallyEntries G.flatten (store_fingerprint G s [])) (s, 0) =
      G.flatten.length := by
  rw [tval_tallyEntries]
  apply sum_map_eq_length
  intro e he
  rw [roundtrip_getList, countP_store_list]
  rw [List.countP_congr (q := fun e' => decide (e' = e)) ?_]
  · exact countP_eq_one_of_nodup_mem _ e hnd he
  · intro e' he'
    simp only [decide_eq_true_eq]
    constructor
    · rintro ⟨h1, h2⟩
      rw [Prod.mk.injEq] at h2
      exact Prod.ext h1 (by omega)
    · rintro rfl
      exact ⟨rfl, by rw [sub_self]⟩

theorem roundtrip_tval_le (G : List Fingerprint) (s : ℤ) (k : ℤ × ℤ)
    (hnd : G.flatten.Nodup) :
    tval (tallyEntries G.flatten (store_fingerprint G s [])) k ≤
      G.flatten.length := by
  rw [tval_tallyEntries]
  apply sum_map_le_length
  intro e he
  rw [roundtrip_getList, countP_store_list]
  refine le_trans
    (List.countP_mono_left (q := fun e' => decide (e' = (e.1, e.2 + k.2)))
      ?_)
    (countP_le_one_of_nodup _ _ hnd)
  intro e' he' hp
  rw [decide_eq_true_eq] at hp
  rw [decide_eq_true_eq]
  rcases hp with ⟨h1, h2⟩
  rw [Prod.ext_iff] at h2
  exact Prod.ext h1 (by dsimp at h2; omega)

theorem roundtrip_keys (G : List Fingerprint) (s : ℤ) :
    ∀ kv ∈ tallyEntries G.flatten (store_fingerprint G s []),
      kv.1.1 = s := by
  refine tallyEntries_keys G.flatten (store_fingerprint G s [])
    (fun k => k.1 = s) ?_
  intro e he sv hsv
  show sv.1 = s
  rw [roundtrip_getList] at hsv
  rcases List.mem_filterMap.1 hsv with ⟨e', he', hfe⟩
  by_cases hk : e'.1 = e.1
  · rw [if_pos hk] at hfe
    injection hfe with hfe
    rw [← hfe]
  · rw [if_neg hk] at hfe
    cases hfe

/-- Claim C3 (amended): storing a group list `G` with at least one entry and
pairwise-distinct `(key, anchorTime)` entries — as `form_fingerprints`
produces from a list of distinct peaks — under song `s` into an empty
store, and then querying with the identical `G`, returns the match string
for `songIDs[s]`, and the winning tally (`max(tallies.values())`) equals
the total number of entries in `G`.  As stated over *every* `G` the claim
is false (`c3_roundtrip_counterexample`): a repeated entry makes the
winning tally exceed the entry count. -/
theorem c3_roundtrip (G : List Fingerprint) (s : ℕ)
    (songIDs : List (String × String)) (info : String × String)
    (hnd : G.flatten.Nodup) (hne : G.flatten ≠ [])
    (hcat : songIDs[s]? = some info) :
    (query_database G (store_fingerprint G (s : ℤ) []) songIDs).1 =
      Except.ok ("The song that matches this is " ++ info.1 ++ " by "
        ++ info.2 ++ ".") ∧
    maxVal (queryTallies G (store_fingerprint G (s : ℤ) [])).1 =
      some G.flatten.length := by
  have hQT : queryTallies G (store_fingerprint G (s : ℤ) []) =
      (tallyEntries G.flatten (store_fingerprint G (s : ℤ) []),
        store_fingerprint G (s : ℤ) []) :=
    queryTallies_eq _ _ fun e he => roundtrip_hasKey G (s : ℤ) e he
  have hnodup := tallyEntries_nodup G.flatten (store_fingerprint G (s : ℤ) [])
  have hN0 : G.flatten.length ≠ 0 := fun hl => hne (List.length_eq_zero.1 hl)
  have htv := roundtrip_tval_diag G (s : ℤ) hnd
  have hmax : maxVal (tallyEntries G.flatten (store_fingerprint G (s : ℤ) [])) =
      some G.flatten.length := by
    apply maxVal_eq_of
    · exact ⟨(((s : ℤ), 0), tval (tallyEntries G.flatten
          (store_fingerprint G (s : ℤ) [])) ((s : ℤ), 0)),
        tval_ne_zero_mem _ _ (by rw [htv]; exact hN0), htv⟩
    · intro kv hkv
      rw [mem_eq_tval _ hnodup kv hkv]
      exact roundtrip_tval_le G (s : ℤ) kv.1 hnd
  refine ⟨?_, by rw [hQT]; exact hmax⟩
  obtain ⟨best, hbest⟩ : ∃ best,
      argmaxKV (tallyEntries G.flatten (store_fingerprint G (s : ℤ) [])) =
        some best := by
    cases htt : tallyEntries G.flatten (store_fingerprint G (s : ℤ) []) with
    | nil => rw [htt] at hmax; cases hmax
    | cons kv0 t' => exact ⟨_, rfl⟩
  have hbs : best.1.1 = (s : ℤ) :=
    roundtrip_keys G (s : ℤ) best (argmaxKV_mem _ best hbest)
  have hpy : pyIndex songIDs best.1.1 = some info := by
    rw [hbs, pyIndex, if_pos (Int.natCast_nonneg s), Int.toNat_natCast]
    exact hcat
  rw [query_database]
  simp only [hQT, hmax, hN0, if_false, hbest, hpy]

/-! ### Claim theorems for the matching engine -/

/-- Claim C1 (code bug): when no query key matches any stored entry, the
tally dict stays empty, `max(tallies.values())` raises `ValueError`, and
the explicit no-match string is never returned — that branch is dead code,
since any tally entry that exists has value ≥ 1.  Evaluated here at
the failing input: one group with one entry, empty store, empty catalog. -/
theorem c1_no_match_raises :
    (query_database [[(((0 : ℤ), 0, 0), (0 : ℤ))]] [] []).1 =
      Except.error PyErr.valueError := rfl

/-- Claim C2 (code bug): a query whose key misses the store inserts that key
with an empty list into the `defaultdict` store (`database[key]` in
`query_database` mutates on a miss), so the store after the query differs
from the store before — evaluated at the failing input: a one-entry query
against the empty store. -/
theorem c2_query_mutates_store :
    (query_database [[(((0 : ℤ), 0, 0), (0 : ℤ))]] [] []).2 =
      [(((0 : ℤ), 0, 0), [])] ∧
    (query_database [[(((0 : ℤ), 0, 0), (0 : ℤ))]] [] []).2 ≠ [] :=
  ⟨rfl, by decide⟩

/-- Claim C3 (counterexample): storing the group list with a duplicated
entry `G = [[((0,0,0),0), ((0,0,0),0)]]` under song 0 and querying with
the same `G` yields a winning tally of 4, not the total entry count 2:
the claim as stated (for *every* `G`) is false. -/
theorem c3_roundtrip_counterexample :
    ¬ (maxVal (queryTallies
          [[(((0 : ℤ), 0, 0), (0 : ℤ)), (((0 : ℤ), 0, 0), (0 : ℤ))]]
          (store_fingerprint
            [[(((0 : ℤ), 0, 0), (0 : ℤ)), (((0 : ℤ), 0, 0), (0 : ℤ))]]
            0 [])).1 =
        some ([[(((0 : ℤ), 0, 0), (0 : ℤ)), (((0 : ℤ), 0, 0), (0 : ℤ))]] :
          List Fingerprint).flatten.length) := by
  decide

/-- Witness for `c3_roundtrip` at the concrete input
`G = [[((0,0,0),0)]]`, `s = 0`, catalog `[("a","b")]`. -/
theorem c3_roundtrip_witness :
    ([[(((0 : ℤ), 0, 0), (0 : ℤ))]] : List Fingerprint).flatten.Nodup ∧
    ([[(((0 : ℤ), 0, 0), (0 : ℤ))]] : List Fingerprint).flatten ≠ [] ∧
    ([("a", "b")] : List (String × String))[(0 : ℕ)]? = some ("a", "b") ∧
    ((query_database [[(((0 : ℤ), 0, 0), (0 : ℤ))]]
        (store_fingerprint [[(((0 : ℤ), 0, 0), (0 : ℤ))]] ((0 : ℕ) : ℤ) [])
        [("a", "b")]).1 =
      Except.ok ("The song that matches this is " ++ ("a", "b").1 ++ " by "
        ++ ("a", "b").2 ++ ".") ∧
      maxVal (queryTallies [[(((0 : ℤ), 0, 0), (0 : ℤ))]]
          (store_fingerprint [[(((0 : ℤ), 0, 0), (0 : ℤ))]]
            ((0 : ℕ) : ℤ) [])).1 =
        some ([[(((0 : ℤ), 0, 0), (0 : ℤ))]] :
          List Fingerprint).flatten.length) :=
  ⟨by decide, by decide, rfl,
    c3_roundtrip [[(((0 : ℤ), 0, 0), (0 : ℤ))]] 0 [("a", "b")] ("a", "b")
      (by decide) (by decide) rfl⟩

/-- Claim C10: when several `(songID, offset)` pairs tie at the maximum
tally, `query_database` returns the songID of the tally entry created
first in traversal order (Python dicts preserve insertion order and
`max` keeps the first maximal element), and the query is deterministic:
two runs on the same inputs are equal. -/
theorem c10_tie_break (fingerprints : List Fingerprint) (database : Store)
    (songIDs : List (String × String)) (m i : ℕ) (kv : (ℤ × ℤ) × ℕ)
    (info : String × String)
    (hm : maxVal (queryTallies fingerprints database).1 = some m)
    (hm0 : m ≠ 0)
    (hi : (queryTallies fingerprints database).1[i]? = some kv)
    (hkv : kv.2 = m)
    (hfirst : ∀ j, j < i → ∀ kv',
      (queryTallies fingerprints database).1[j]? = some kv' → kv'.2 < m)
    (hcat : pyIndex songIDs kv.1.1 = some info) :
    (query_database fingerprints database songIDs).1 =
      Except.ok ("The song that matches this is " ++ info.1 ++ " by "
        ++ info.2 ++ ".") ∧
    query_database fingerprints database songIDs =
      query_database fingerprints database songIDs := by
  refine ⟨?_, rfl⟩
  have ha : argmaxKV (queryTallies fingerprints database).1 = some kv :=
    argmaxKV_first _ m i kv (maxVal_le _ m hm) hi hkv hfirst
  rw [query_database]
  simp only [hm, hm0, if_false, ha, hcat]

/-- Witness for `c10_tie_break`: querying one key stored for songs 1 and
0 (in that order) produces the tallies `[((1,0),1), ((0,5),1)]` — a tie
at 1 — and the query returns song 1, whose tally entry was created
first. -/
theorem c10_tie_break_witness :
    (queryTallies [[(((0 : ℤ), 0, 0), (0 : ℤ))]]
        [(((0 : ℤ), 0, 0), [((1 : ℤ), 0), (0, 5)])]).1 =
      [(((1 : ℤ), 0), 1), (((0 : ℤ), 5), 1)] ∧
    (query_database [[(((0 : ℤ), 0, 0), (0 : ℤ))]]
        [(((0 : ℤ), 0, 0), [((1 : ℤ), 0), (0, 5)])]
        [("a", "aa"), ("b", "bb")]).1 =
      Except.ok ("The song that matches this is " ++ ("b", "bb").1 ++ " by "
        ++ ("b", "bb").2 ++ ".") :=
  ⟨rfl,
    (c10_tie_break [[(((0 : ℤ), 0, 0), (0 : ℤ))]]
      [(((0 : ℤ), 0, 0), [((1 : ℤ), 0), (0, 5)])]
      [("a", "aa"), ("b", "bb")] 1 0 (((1 : ℤ), 0), 1) ("b", "bb")
      rfl (by decide) rfl rfl
      (fun j hj kv' _ => absurd hj (Nat.not_lt_zero j)) rfl).1⟩

/-! ### Claim theorems for peak extraction -/

theorem mem_peaks_iff {α : Type} [LinearOrder α] (H W : ℕ)
    (data : ℤ → ℤ → α) (offsets : List (ℤ × ℤ)) (amp_min : α) (r c : ℕ) :
    (r, c) ∈ _peaks H W data offsets amp_min ↔
      r < H ∧ c < W ∧ amp_min < data (r : ℤ) (c : ℤ) ∧
        ∀ o ∈ offsets, greaterNbr H W data r c o = false := by
  rw [_peaks]
  simp only [List.mem_flatMap, List.mem_map, List.mem_filter,
    List.mem_range, Bool.and_eq_true, decide_eq_true_eq,
    Bool.not_eq_true', List.any_eq_false, Bool.not_eq_true,
    Prod.mk.injEq]
  constructor
  · rintro ⟨c', hc', r', ⟨⟨hr', hamp, hany⟩, rfl, rfl⟩⟩
    exact ⟨hr', hc', hamp, hany⟩
  · rintro ⟨hr, hc, hamp, hany⟩
    exact ⟨c, hc, r, ⟨hr, hamp, hany⟩, rfl, rfl⟩

theorem greaterNbr_eq_false_iff {α : Type} [LinearOrder α] (H W : ℕ)
    (data : ℤ → ℤ → α) (r c : ℕ) (o : ℤ × ℤ) :
    greaterNbr H W data r c o = false ↔
      (¬ (o.1 = 0 ∧ o.2 = 0) →
        0 ≤ (r : ℤ) + o.1 → (r : ℤ) + o.1 < (H : ℤ) →
        0 ≤ (c : ℤ) + o.2 → (c : ℤ) + o.2 < (W : ℤ) →
        ¬ data (r : ℤ) (c : ℤ) < data ((r : ℤ) + o.1) ((c : ℤ) + o.2)) := by
  rw [← Bool.not_eq_true, greaterNbr]
  simp only [Bool.and_eq_true, Bool.not_eq_true', decide_eq_false_iff_not,
    decide_eq_true_eq, not_and]
  constructor
  · intro h hnz h1 h2 h3 h4 hlt
    exact h ⟨⟨hnz, h1, h2⟩, h3, h4⟩ hlt
  · intro h hcon hlt
    exact h hcon.1.1 hcon.1.2.1 hcon.1.2.2 hcon.2.1 hcon.2.2 hlt

/-- Claim C4: every peak returned by `_peaks` has amplitude strictly
greater than the cutoff `amp_min` — cells at or below the cutoff are
never returned. -/
theorem c4_peaks_above_cutoff {α : Type} [LinearOrder α] (H W : ℕ)
    (data : ℤ → ℤ → α) (offsets : List (ℤ × ℤ)) (amp_min : α) :
    ∀ p ∈ _peaks H W data offsets amp_min,
      amp_min < data (p.1 : ℤ) (p.2 : ℤ) := by
  intro p hp
  rw [_peaks] at hp
  rcases List.mem_flatMap.1 hp with ⟨c, hc, hp'⟩
  rcases List.mem_map.1 hp' with ⟨r, hr, rfl⟩
  rw [List.mem_filter, Bool.and_eq_true, decide_eq_true_eq] at hr
  exact hr.2.1

/-- Witness for `c4_peaks_above_cutoff` on a 1×1 constant matrix with
cutoff 0. -/
theorem c4_peaks_above_cutoff_witness :
    ((0, 0) ∈ _peaks 1 1 (fun _ _ => (1 : ℤ)) [] 0) ∧ (0 : ℤ) < 1 :=
  ⟨by decide,
    c4_peaks_above_cutoff 1 1 (fun _ _ => (1 : ℤ)) [] 0 (0, 0) (by decide)⟩

/-- Claim C5: an in-bounds candidate cell whose amplitude exceeds the
cutoff is accepted as a peak iff no in-bounds neighbor at a non-zero mask
offset has strictly greater amplitude; an equal-amplitude neighbor never
disqualifies (the comparison is strict). -/
theorem c5_neighbor_rule {α : Type} [LinearOrder α] (H W : ℕ)
    (data : ℤ → ℤ → α) (offsets : List (ℤ × ℤ)) (amp_min : α) (r c : ℕ)
    (hr : r < H) (hc : c < W)
    (hamp : amp_min < data (r : ℤ) (c : ℤ)) :
    (r, c) ∈ _peaks H W data offsets amp_min ↔
      ∀ o ∈ offsets, o ≠ (0, 0) →
        0 ≤ (r : ℤ) + o.1 → (r : ℤ) + o.1 < (H : ℤ) →
        0 ≤ (c : ℤ) + o.2 → (c : ℤ) + o.2 < (W : ℤ) →
        ¬ data (r : ℤ) (c : ℤ) <
            data ((r : ℤ) + o.1) ((c : ℤ) + o.2) := by
  rw [mem_peaks_iff]
  simp only [hr, hc, hamp, true_and]
  constructor
  · intro hany o ho hnz h1 h2 h3 h4
    exact (greaterNbr_eq_false_iff H W data r c o).1 (hany o ho)
      (fun hz => hnz (Prod.ext hz.1 hz.2)) h1 h2 h3 h4
  · intro hall o ho
    rw [greaterNbr_eq_false_iff]
    intro hnz h1 h2 h3 h4
    exact hall o ho (fun he => hnz ⟨by rw [he], by rw [he]⟩) h1 h2 h3 h4

/-- Witness for `c5_neighbor_rule` on a 1×2 matrix with a strictly
greater right neighbor: the candidate `(0,0)` is rejected, and the
neighbor rule instance holds at that concrete input. -/
theorem c5_neighbor_rule_witness :
    (0 : ℕ) < 1 ∧ (0 : ℕ) < 2 ∧
    ((0 : ℤ) < (fun (_ c : ℤ) => if c = 0 then (1 : ℤ) else 2) 0 0) ∧
    ((0, 0) ∈ _peaks 1 2 (fun (_ c : ℤ) => if c = 0 then (1 : ℤ) else 2)
        [(0, 1)] 0 ↔
      ∀ o ∈ [((0 : ℤ), (1 : ℤ))], o ≠ (0, 0) →
        0 ≤ ((0 : ℕ) : ℤ) + o.1 → ((0 : ℕ) : ℤ) + o.1 < ((1 : ℕ) : ℤ) →
        0 ≤ ((0 : ℕ) : ℤ) + o.2 → ((0 : ℕ) : ℤ) + o.2 < ((2 : ℕ) : ℤ) →
        ¬ (fun (_ c : ℤ) => if c = 0 then (1 : ℤ) else 2)
            ((0 : ℕ) : ℤ) ((0 : ℕ) : ℤ) <
          (fun (_ c : ℤ) => if c = 0 then (1 : ℤ) else 2)
            (((0 : ℕ) : ℤ) + o.1) (((0 : ℕ) : ℤ) + o.2)) :=
  ⟨by decide, by decide, by decide,
    c5_neighbor_rule 1 2 (fun (_ c : ℤ) => if c = 0 then (1 : ℤ) else 2)
      [(0, 1)] 0 0 0 (by decide) (by decide) (by decide)⟩

/-- Claim C6: the peak list is ordered column-major — ascending time-frame
(column) index, and ascending frequency-bin (row) index within equal
columns — and running the extraction twice on the same inputs yields
identical lists (the embedding is a pure function). -/
theorem c6_column_major {α : Type} [LinearOrder α] (H W : ℕ)
    (data : ℤ → ℤ → α) (offsets : List (ℤ × ℤ)) (amp_min : α) :
    (_peaks H W data offsets amp_min).Pairwise
      (fun p q => p.2 < q.2 ∨ (p.2 = q.2 ∧ p.1 < q.1)) ∧
    _peaks H W data offsets amp_min = _peaks H W data offsets amp_min := by
  refine ⟨?_, rfl⟩
  rw [_peaks, List.pairwise_flatMap]
  constructor
  · intro c hc
    rw [List.pairwise_map]
    refine List.Pairwise.imp ?_
      (List.Pairwise.filter _ (List.pairwise_lt_range H))
    intro r r' hrr
    exact Or.inr ⟨rfl, hrr⟩
  · refine List.Pairwise.imp ?_ (List.pairwise_lt_range W)
    intro c1 c2 hlt x hx y hy
    rcases List.mem_map.1 hx with ⟨rx, _, rfl⟩
    rcases List.mem_map.1 hy with ⟨ry, _, rfl⟩
    exact Or.inl hlt

/-! ### Claim theorems for the fingerprint encoder -/

theorem form_fingerprints_getElem? (fanout_size : ℕ)
    (peaks : List (ℤ × ℤ)) (i : ℕ) (g : Fingerprint)
    (hg : (form_fingerprints fanout_size peaks)[i]? = some g) :
    ∃ p, peaks[i]? = some p ∧
      g.length = min fanout_size (peaks.length - (i + 1)) ∧
      ∀ k e, g[k]? = some e →
        k < fanout_size ∧
        ∃ q, peaks[i + 1 + k]? = some q ∧
          e = ((p.1, q.1, q.2 - p.2), p.2) := by
  rw [form_fingerprints, List.getElem?_map, List.getElem?_enum] at hg
  cases hp : peaks[i]? with
  | none => rw [hp] at hg; cases hg
  | some p =>
    rw [hp] at hg
    simp only [Option.map_some'] at hg
    injection hg with hg
    refine ⟨p, rfl, ?_, ?_⟩
    · rw [← hg, List.length_map, List.length_take, List.length_drop]
    · intro k e he
      rw [← hg, List.getElem?_map, List.getElem?_take] at he
      by_cases hk : k < fanout_size
      · rw [if_pos hk, List.getElem?_drop] at he
        cases hq : peaks[i + 1 + k]? with
        | none =>
          rw [show (i, p).1 + 1 + k = i + 1 + k from rfl, hq] at he
          cases he
        | some q =>
          rw [show (i, p).1 + 1 + k = i + 1 + k from rfl, hq] at he
          simp only [Option.map_some'] at he
          injection he with he
          exact ⟨hk, q, rfl, he.symm⟩
      · rw [if_neg hk] at he
        simp at he

/-- Claim C7: the encoder emits one group per anchor, in list order; group
`i` has exactly `min fanout_size (N - (i+1))` entries — one per partner
index `j` with `i+1 ≤ j ≤ min (i+fanout_size) (N-1)` — the entry for
partner `j = i+1+k` being `((freq_i, freq_j, time_j - time_i), time_i)`;
and the spec's concrete scenario holds: the peak list
`[(2,0),(5,1),(1,2),(2,2)]` with `fanout_size = 2` yields groups of
lengths `[2,2,1,0]` whose first group's keys are `[(2,5,1), (2,1,2)]`. -/
theorem c7_fanout_groups :
    (∀ fanout_size : ℕ, 1 ≤ fanout_size → ∀ peaks : List (ℤ × ℤ),
      (form_fingerprints fanout_size peaks).length = peaks.length ∧
      ∀ i g, (form_fingerprints fanout_size peaks)[i]? = some g →
        ∃ p, peaks[i]? = some p ∧
          g.length = min fanout_size (peaks.length - (i + 1)) ∧
          ∀ k e, g[k]? = some e →
            k < fanout_size ∧
            ∃ q, peaks[i + 1 + k]? = some q ∧
              e = ((p.1, q.1, q.2 - p.2), p.2)) ∧
    form_fingerprints 2 [(2, 0), (5, 1), (1, 2), (2, 2)] =
      [[(((2 : ℤ), 5, 1), 0), ((2, 1, 2), 0)],
       [((5, 1, 1), 1), ((5, 2, 1), 1)],
       [((1, 2, 0), 2)],
       []] := by
  refine ⟨fun fanout_size _ peaks => ⟨?_, ?_⟩, by decide⟩
  · rw [form_fingerprints, List.length_map, List.enum_length]
  · intro i g hg
    exact form_fingerprints_getElem? fanout_size peaks i g hg

/-- Witness for `c7_fanout_groups` at `fanout_size = 2` and the spec's
concrete peak list. -/
theorem c7_fanout_groups_witness :
    1 ≤ 2 ∧
    ((form_fingerprints 2 [(2, 0), (5, 1), (1, 2), (2, 2)]).length =
        ([(2, 0), (5, 1), (1, 2), (2, 2)] : List (ℤ × ℤ)).length ∧
      ∀ i g,
        (form_fingerprints 2 [(2, 0), (5, 1), (1, 2), (2, 2)])[i]? =
          some g →
        ∃ p, ([(2, 0), (5, 1), (1, 2), (2, 2)] : List (ℤ × ℤ))[i]? =
            some p ∧
          g.length = min 2
            (([(2, 0), (5, 1), (1, 2), (2, 2)] : List (ℤ × ℤ)).length -
              (i + 1)) ∧
          ∀ k e, g[k]? = some e →
            k < 2 ∧
            ∃ q, ([(2, 0), (5, 1), (1, 2), (2, 2)] :
                List (ℤ × ℤ))[i + 1 + k]? = some q ∧
              e = ((p.1, q.1, q.2 - p.2), p.2)) :=
  ⟨by decide, c7_fanout_groups.1 2 (by decide) [(2, 0), (5, 1), (1, 2), (2, 2)]⟩

/-- Claim C8: for a peak list sorted by ascending time index and any fanout
size, every emitted entry has Δtime ≥ 0, and every entry of group `i`
pairs the anchor `peaks[i]` with a partner at a strictly greater index. -/
theorem c8_forward_pairs (fanout_size : ℕ) (peaks : List (ℤ × ℤ))
    (hsorted : peaks.Pairwise fun p q => p.2 ≤ q.2) :
    ∀ i g, (form_fingerprints fanout_size peaks)[i]? = some g →
      ∀ e ∈ g, 0 ≤ e.1.2.2 ∧
        ∃ (j : ℕ) (p q : ℤ × ℤ), i < j ∧ peaks[i]? = some p ∧
          peaks[j]? = some q ∧ e = ((p.1, q.1, q.2 - p.2), p.2) := by
  intro i g hg e he
  obtain ⟨p, hp, hlen, hmem⟩ :=
    form_fingerprints_getElem? fanout_size peaks i g hg
  obtain ⟨k, hk⟩ := List.mem_iff_getElem?.1 he
  obtain ⟨hkf, q, hq, hee⟩ := hmem k e hk
  have hij : i < i + 1 + k := by omega
  have hpq : p.2 ≤ q.2 := by
    rw [List.pairwise_iff_getElem] at hsorted
    obtain ⟨hib, hpe⟩ := List.getElem?_eq_some.1 hp
    obtain ⟨hjb, hqe⟩ := List.getElem?_eq_some.1 hq
    have h := hsorted i (i + 1 + k) hib hjb hij
    rw [hpe, hqe] at h
    exact h
  refine ⟨?_, i + 1 + k, p, q, hij, hp, hq, hee⟩
  rw [hee]
  show (0 : ℤ) ≤ q.2 - p.2
  omega

/-- Witness for `c8_forward_pairs` at the sorted peak list
`[(2,0),(5,1)]` with `fanout_size = 2`. -/
theorem c8_forward_pairs_witness :
    (([(2, 0), (5, 1)] : List (ℤ × ℤ)).Pairwise fun p q => p.2 ≤ q.2) ∧
    (∀ i g, (form_fingerprints 2 [(2, 0), (5, 1)])[i]? = some g →
      ∀ e ∈ g, 0 ≤ e.1.2.2 ∧
        ∃ (j : ℕ) (p q : ℤ × ℤ), i < j ∧
          ([(2, 0), (5, 1)] : List (ℤ × ℤ))[i]? = some p ∧
          ([(2, 0), (5, 1)] : List (ℤ × ℤ))[j]? = some q ∧
          e = ((p.1, q.1, q.2 - p.2), p.2)) :=
  ⟨by decide, c8_forward_pairs 2 [(2, 0), (5, 1)] (by decide)⟩

/-! ### Claim theorems for the percentile cutoff -/

theorem pyRoundTimes_eq (n : ℕ) (x : ℚ) :
    pyRoundTimes n x = pyRound ((n : ℚ) * x) := by
  have hd0 : (0 : ℤ) < (x.den : ℤ) := Int.natCast_pos.2 x.pos
  have hdQ : (0 : ℚ) < ((x.den : ℕ) : ℚ) := by exact_mod_cast hd0
  have hy : (n : ℚ) * x = (((n : ℤ) * x.num : ℤ) : ℚ) / ((x.den : ℕ) : ℚ) := by
    push_cast
    conv_lhs => rw [← Rat.num_div_den x]
    ring
  have hfloor : ⌊(n : ℚ) * x⌋ = ((n : ℤ) * x.num) / (x.den : ℤ) := by
    rw [hy, Rat.floor_intCast_div_natCast]
  have hfract : Int.fract ((n : ℚ) * x) =
      ((((n : ℤ) * x.num) % (x.den : ℤ) : ℤ) : ℚ) / ((x.den : ℕ) : ℚ) := by
    rw [Int.fract, hfloor, hy, Int.emod_def]
    push_cast
    field_simp
  have h1 : ((((n : ℤ) * x.num) % (x.den : ℤ) : ℤ) : ℚ) /
        ((x.den : ℕ) : ℚ) < 1 / 2 ↔
      2 * (((n : ℤ) * x.num) % (x.den : ℤ)) < (x.den : ℤ) := by
    rw [div_lt_div_iff₀ hdQ (by norm_num : (0 : ℚ) < 2), one_mul, mul_comm]
    exact_mod_cast Iff.rfl
  have h2 : (1 : ℚ) / 2 < ((((n : ℤ) * x.num) % (x.den : ℤ) : ℤ) : ℚ) /
        ((x.den : ℕ) : ℚ) ↔
      (x.den : ℤ) < 2 * (((n : ℤ) * x.num) % (x.den : ℤ)) := by
    rw [div_lt_div_iff₀ (by norm_num : (0 : ℚ) < 2) hdQ, one_mul, mul_comm]
    exact_mod_cast Iff.rfl
  simp only [pyRoundTimes, pyRound, hfloor, hfract, h1, h2]

theorem pyRoundTimes_nonneg (n : ℕ) (x : ℚ) (hx : 0 ≤ x) :
    0 ≤ pyRoundTimes n x := by
  have hnum : 0 ≤ (n : ℤ) * x.num :=
    mul_nonneg (Int.natCast_nonneg n) (Rat.num_nonneg.2 hx)
  have hq : 0 ≤ (n : ℤ) * x.num / (x.den : ℤ) :=
    Int.ediv_nonneg hnum (Int.natCast_nonneg x.den)
  simp only [pyRoundTimes]
  split_ifs <;> omega

/-- Claim C9 (amended): for a non-empty flattened matrix with `n` values
and percentile `0 ≤ p < 1` *such that the selection index `round(n·p)`
is `< n`*, the cutoff computation succeeds and returns the element of
rank `round(n·p)` in the ascending order of the values (characterized by
rank counts over the original data).  As stated — for *every*
`0 ≤ p < 1` — the claim is false: for `p` close enough to 1 the index
equals `n` and `np.partition` raises (`c9_percentile_counterexample`). -/
theorem sorted_countP_lt_le {α : Type} [LinearOrder α] (s : List α)
    (i : ℕ) (v : α) (hib : i < s.length)
    (hsort : List.Sorted (· ≤ ·) s) (hv : s[i] = v) :
    s.countP (fun a => decide (a < v)) ≤ i := by
  conv_lhs => rw [← List.take_append_drop i s]
  rw [List.countP_append]
  have hd0 : (s.drop i).countP (fun a => decide (a < v)) = 0 := by
    rw [List.countP_eq_zero]
    intro a ha
    obtain ⟨j, hj⟩ := List.mem_iff_getElem?.1 ha
    rw [List.getElem?_drop] at hj
    obtain ⟨hjb, hje⟩ := List.getElem?_eq_some.1 hj
    simp only [decide_eq_true_eq]
    intro hlt
    rcases Nat.eq_zero_or_pos j with hj0 | hj0
    · subst hj0
      have hav : a = v := by rw [← hje]; exact hv
      exact absurd hlt (not_lt.2 (le_of_eq hav.symm))
    · have hle := (List.pairwise_iff_getElem.1 hsort) i (i + j) hib hjb
        (by omega)
      rw [hv, hje] at hle
      exact absurd hlt (not_lt.2 hle)
  rw [hd0, Nat.add_zero]
  calc (s.take i).countP (fun a => decide (a < v)) ≤ (s.take i).length :=
      List.countP_le_length _
    _ ≤ i := by rw [List.length_take]; omega

theorem sorted_countP_le_gt {α : Type} [LinearOrder α] (s : List α)
    (i : ℕ) (v : α) (hib : i < s.length)
    (hsort : List.Sorted (· ≤ ·) s) (hv : s[i] = v) :
    i < s.countP (fun a => decide (a ≤ v)) := by
  conv_rhs => rw [← List.take_append_drop (i + 1) s]
  rw [List.countP_append]
  have hall : (s.take (i + 1)).countP (fun a => decide (a ≤ v)) =
      i + 1 := by
    have hlen1 : (s.take (i + 1)).length = i + 1 := by
      rw [List.length_take]; omega
    have hfull : (s.take (i + 1)).countP (fun a => decide (a ≤ v)) =
        (s.take (i + 1)).length := by
      rw [List.countP_eq_length]
      intro a ha
      obtain ⟨j, hj⟩ := List.mem_iff_getElem?.1 ha
      rw [List.getElem?_take] at hj
      by_cases hjlt : j < i + 1
      · rw [if_pos hjlt] at hj
        obtain ⟨hjb, hje⟩ := List.getElem?_eq_some.1 hj
        simp only [decide_eq_true_eq]
        rcases Nat.lt_or_ge j i with h | h
        · have hle := (List.pairwise_iff_getElem.1 hsort) j i hjb hib h
          rw [hv, hje] at hle
          exact hle
        · have hji : j = i := by omega
          subst hji
          refine le_of_eq ?_
          rw [← hje]
          exact hv
      · rw [if_neg hjlt] at hj
        cases hj
    rw [hfull, hlen1]
  omega

theorem c9_percentile_rank {α : Type} [LinearOrder α] (data : List α)
    (p : ℚ) (hne : data ≠ []) (hp0 : 0 ≤ p) (hp1 : p < 1)
    (hidx : (pyRoundTimes data.length p).toNat < data.length) :
    ∃ v, _find_cutoff data p = some v ∧ v ∈ data ∧
      data.countP (fun a => decide (a < v)) ≤
        (pyRoundTimes data.length p).toNat ∧
      (pyRoundTimes data.length p).toNat <
        data.countP fun a => decide (a ≤ v) := by
  have h0 : 0 ≤ pyRoundTimes data.length p :=
    pyRoundTimes_nonneg data.length p hp0
  have hlen : (List.insertionSort (· ≤ ·) data).length = data.length :=
    List.length_insertionSort _ _
  have hib : (pyRoundTimes data.length p).toNat <
      (List.insertionSort (· ≤ ·) data).length := by omega
  have hsort := List.sorted_insertionSort (· ≤ ·) data
  have hperm := List.perm_insertionSort (· ≤ ·) data
  refine ⟨(List.insertionSort (· ≤ ·)
      data)[(pyRoundTimes data.length p).toNat], ?_, ?_, ?_, ?_⟩
  · simp only [_find_cutoff]
    rw [if_pos ⟨h0, hidx⟩]
    exact List.getElem?_eq_getElem hib
  · exact hperm.mem_iff.1 (List.getElem_mem hib)
  · rw [← hperm.countP_eq]
    exact sorted_countP_lt_le _ _ _ hib hsort rfl
  · rw [← hperm.countP_eq]
    exact sorted_countP_le_gt _ _ _ hib hsort rfl

/-- Claim C9 (counterexample): a 2-value matrix with percentile `p = 3/4`
(a value exactly representable as a float) satisfies `0 ≤ p < 1`, yet
`round(2 · 3/4) = round(1.5) = 2` (Python's round-half-to-even) is out of
bounds and `np.partition` raises `ValueError` — the cutoff computation
does not succeed as the claim states. -/
theorem c9_percentile_counterexample :
    ([1, 2] : List ℤ) ≠ [] ∧ (0 : ℚ) ≤ 3 / 4 ∧ (3 : ℚ) / 4 < 1 ∧
    _find_cutoff ([1, 2] : List ℤ) (3 / 4) = none := by
  have h34 : (3 / 4 : ℚ) = ⟨3, 4, by decide, by decide⟩ := by
    rw [Rat.mk'_eq_divInt, Rat.divInt_eq_div]
    norm_num
  refine ⟨by decide, ?_, ?_, ?_⟩
  · rw [h34]; decide
  · rw [h34]; decide
  · rw [h34]; decide

/-- Witness for `c9_percentile_rank`: `data = [5, 1, 3]`, `p = 1/2`
(written as its reduced fraction), so `idx = round(3 · 1/2) = 2` and the
returned cutoff is `5`, the rank-2 element of the sorted data `[1,3,5]`. -/
theorem c9_percentile_rank_witness :
    (([5, 1, 3] : List ℤ) ≠ [] ∧
      (0 : ℚ) ≤ ⟨1, 2, by decide, by decide⟩ ∧
      (⟨1, 2, by decide, by decide⟩ : ℚ) < 1 ∧
      (pyRoundTimes ([5, 1, 3] : List ℤ).length
        ⟨1, 2, by decide, by decide⟩).toNat <
        ([5, 1, 3] : List ℤ).length) ∧
    ∃ v, _find_cutoff ([5, 1, 3] : List ℤ)
        (⟨1, 2, by decide, by decide⟩ : ℚ) = some v ∧
      v ∈ ([5, 1, 3] : List ℤ) ∧
      ([5, 1, 3] : List ℤ).countP (fun a => decide (a < v)) ≤
        (pyRoundTimes ([5, 1, 3] : List ℤ).length
          ⟨1, 2, by decide, by decide⟩).toNat ∧
      (pyRoundTimes ([5, 1, 3] : List ℤ).length
          ⟨1, 2, by decide, by decide⟩).toNat <
        ([5, 1, 3] : List ℤ).countP fun a => decide (a ≤ v) :=
  ⟨⟨by decide, by decide, by decide, by decide⟩,
    c9_percentile_rank [5, 1, 3] ⟨1, 2, by decide, by decide⟩
      (by decide) (by decide) (by decide) (by decide)⟩

end SpecRec
